import Mathlib

set_option maxRecDepth 40000
set_option maxHeartbeats 2000000

/-!
Verification development for the VERGO website deep-clean script
(apps/api/public/fix-vergo-files.py).

The script reads each HTML page, applies a fixed sequence of regex
substitutions, and writes the result back (keeping a .bak sibling) when the
text changed.  We embed the text pipeline over `List Char`.  All regex
patterns of the script are of restricted shapes (literals, the whitespace
class, maximal runs of characters distinct from a single delimiter), for
which Python backtracking is deterministic; each matcher below computes the
unique match length the Python engine would produce at a given position,
and `subst` reproduces the leftmost, non-overlapping global substitution
performed by re.sub and str.replace.
-/

namespace VergoFix

/-- Python whitespace class for the re module, on the ASCII range used by
the repository pages (space, tab, newline, carriage return, vertical tab,
form feed). -/
def isSp (c : Char) : Bool :=
  c == ' ' || c == '\t' || c == '\n' || c == '\r' || c == Char.ofNat 11 || c == Char.ofNat 12

/-- Single-quote character (used by the verbose inline-script pattern). -/
def sq : Char := Char.ofNat 39

/-- Opening curly brace character. -/
def lb : Char := Char.ofNat 123

/-- Closing curly brace character. -/
def rb : Char := Char.ofNat 125

def s2l (s : String) : List Char := s.toList

/-- Drop the literal `l` from the front of the text, returning the rest,
or `none` when the text does not start with `l`. -/
def dropLit? : List Char → List Char → Option (List Char)
  | [], s => some s
  | _, [] => none
  | a :: l, c :: s => if c = a then dropLit? l s else none

/-- Length of the maximal run of characters satisfying `p` at the front. -/
def runLen (p : Char → Bool) (s : List Char) : Nat :=
  (s.takeWhile p).length

/-- A matcher: given the text starting at the current position, return the
number of characters the pattern consumes there together with the remaining
text, or `none` when the pattern does not match at this position. -/
abbrev M := List Char → Option (Nat × List Char)

def mLit (l : List Char) : M := fun s =>
  match dropLit? l s with
  | some r => some (l.length, r)
  | none => none

/-- Greedy `\s*`: consumes the maximal whitespace run (possibly empty). -/
def mWs : M := fun s =>
  some (runLen isSp s, s.drop (runLen isSp s))

/-- Greedy run of characters different from `c` (possibly empty), as used
for the tail of the inline-script patterns, where the continuation starts
with a character that the run can never contain. -/
def mNotCh (c : Char) : M := fun s =>
  some (runLen (fun d => !(d == c)) s, s.drop (runLen (fun d => !(d == c)) s))

/-- Greedy nonempty run of characters different from `c`. -/
def mNotCh1 (c : Char) : M := fun s =>
  if runLen (fun d => !(d == c)) s = 0 then none
  else some (runLen (fun d => !(d == c)) s, s.drop (runLen (fun d => !(d == c)) s))

def mSeq (a b : M) : M := fun s =>
  match a s with
  | some (n, r) =>
    match b r with
    | some (m, r2) => some (n + m, r2)
    | none => none
  | none => none

/-- Optional group.  In every pattern of the script the group starts with a
literal whose first character can never begin the continuation, so the
Python engine commits to the group whenever its literal matches; this
matcher does the same. -/
def mOpt (a : M) : M := fun s =>
  match a s with
  | some x => some x
  | none => some (0, s)

/-- `\n{4,}`: greedy maximal run of at least four newline characters. -/
def mNl4 : M := fun s =>
  if 4 ≤ runLen (fun d => d == '\n') s then
    some (runLen (fun d => d == '\n') s, s.drop (runLen (fun d => d == '\n') s))
  else none

/-- Global leftmost non-overlapping substitution, as performed by `re.sub`
and `str.replace`: scan left to right, at each position try the matcher;
on a match emit the replacement and resume after the match (replacements
are not rescanned), otherwise emit the character and advance by one.  All
matchers used consume at least one character. -/
def substGo (m : M) (repl : List Char) : Nat → List Char → List Char
  | _, [] => []
  | 0, s => s
  | fuel + 1, c :: cs =>
    match m (c :: cs) with
    | some (n, _) => repl ++ substGo m repl fuel (cs.drop (n - 1))
    | none => c :: substGo m repl fuel cs

def subst (m : M) (repl : List Char) (s : List Char) : List Char :=
  substGo m repl s.length s

/-- A matcher consumes exactly the characters it reports: the remaining
text is the drop of the consumed count. -/
def Consumes (m : M) : Prop :=
  ∀ s n r, m s = some (n, r) → r = s.drop n ∧ n ≤ s.length

/-- `re.search`: does the pattern match at some position of the text? -/
def hasMatch (m : M) : List Char → Bool
  | [] => (m []).isSome
  | c :: cs => (m (c :: cs)).isSome || hasMatch m cs

/-- Python substring containment (the `in` operator on strings). -/
def hasSub (l : List Char) : List Char → Bool
  | [] => (dropLit? l []).isSome
  | c :: cs => (dropLit? l (c :: cs)).isSome || hasSub l cs

/-- Number of positions at which the literal `l` occurs in the text. -/
def countSub (l : List Char) : List Char → Nat
  | [] => if (dropLit? l []).isSome then 1 else 0
  | c :: cs => (if (dropLit? l (c :: cs)).isSome then 1 else 0) + countSub l cs

/-- `str.replace`, replacing every occurrence of the (nonempty) literal. -/
def replaceAll (pat repl : List Char) (s : List Char) : List Char :=
  subst (mLit pat) repl s

/-! ### Literals of the script -/

def emailTag : List Char :=
  s2l "<script data-cfasync=\"false\" src=\"/cdn-cgi/scripts/5c5dd728/cloudflare-static/email-decode.min.js\"></script>"

def mobileCss : List Char := s2l "<link rel=\"stylesheet\" href=\"/vergo-mobile.css\">"

def stylesCss : List Char := s2l "<link rel=\"stylesheet\" href=\"/vergo-styles.css\">"

/-- Replacement text of the duplicate-CSS fix. -/
def cssRepl : List Char := stylesCss ++ s2l "\n  " ++ mobileCss

def footerC : List Char := s2l "<!-- Footer -->"

def scriptOpen : List Char := s2l "<script>"

def scriptClose : List Char := s2l "</script>"

def funcToggle : List Char := s2l "function toggleMenu()"

/-- The literal of the optional strict-mode prologue group. -/
def useStrict : List Char := sq :: (s2l "use strict" ++ [sq, ';'])

def navTag : List Char := s2l "<script src=\"/vergo-nav.js\"></script>"

def footTag : List Char := s2l "<script src=\"/vergo-footer.js\"></script>"

def analTag : List Char := s2l "<script src=\"/vergo-analytics.js\"></script>"

def utilsTag : List Char := s2l "<script src=\"/vergo-utils.js\"></script>"

def bodyTag : List Char := s2l "</body>"

def hireStaffL : List Char := s2l "hire-staff"

/-- CORRECT_SCRIPTS: the canonical block substituted for the closing body
tag. -/
def blockL : List Char :=
  s2l "  <script src=\"/vergo-utils.js\"></script>\n  <script src=\"/vergo-nav.js\"></script>\n  <script src=\"/vergo-footer.js\"></script>\n  <script src=\"/vergo-analytics.js\"></script>\n</body>"

/-! ### Matchers of the individual regexes -/

/-- duplicate_email_script: two adjacent email-decode tags separated by
whitespace only. -/
def mEmailDup : M := mSeq (mLit emailTag) (mSeq mWs (mLit emailTag))

/-- dup_css: mobile tag, styles tag, whitespace, mobile tag again. -/
def mDupCss : M := mSeq (mLit (mobileCss ++ stylesCss)) (mSeq mWs (mLit mobileCss))

/-- dup_footer: two adjacent Footer marker comments. -/
def mDupFooter : M := mSeq (mLit footerC) (mSeq mWs (mLit footerC))

/-- inline_nav_script, the verbose pattern.  After the closing brace the
regex tail consists of character classes excluding the angle bracket,
optional literals without an angle bracket, and the whitespace class, so
no alternative of the Python engine can cross an angle-bracket character:
the tail is equivalent to the maximal run of characters other than the
opening angle bracket followed immediately by the closing script tag. -/
def mVerboseNav : M :=
  mSeq (mLit scriptOpen)
    (mSeq mWs
      (mSeq (mOpt (mSeq (mLit useStrict) mWs))
        (mSeq (mLit funcToggle)
          (mSeq mWs
            (mSeq (mLit [lb])
              (mSeq (mNotCh1 rb)
                (mSeq (mLit [rb])
                  (mSeq (mNotCh '<') (mLit scriptClose)))))))))

/-- simple_nav_script: script tag, whitespace, the function header, a
nonempty run of characters other than the opening angle bracket, the
closing script tag. -/
def mSimpleNav : M :=
  mSeq (mLit scriptOpen)
    (mSeq mWs (mSeq (mLit funcToggle) (mSeq (mNotCh1 '<') (mLit scriptClose))))

/-- Whitespace followed by a literal include tag, as removed by step 5. -/
def mWsThen (l : List Char) : M := mSeq mWs (mLit l)

/-- Whitespace, the utility include, whitespace, the closing body tag. -/
def mUtilsBody : M := mSeq mWs (mSeq (mLit utilsTag) (mSeq mWs (mLit bodyTag)))

/-- Replacement of the utility-include removal before the body tag. -/
def nlBody : List Char := '\n' :: bodyTag

def emailLabel : String := "Removed duplicate email-decode script"

def cssLabel : String := "Fixed duplicate CSS imports"

def footerLabel : String := "Removed duplicate footer comment"

def verboseLabel : String := "Removed inline nav scripts (now in vergo-nav.js)"

def simpleLabel : String := "Removed simple inline toggleMenu"

def sharedLabel : String := "Added shared component scripts"

/-! ### The pipeline (fix_file, pure part) -/

/-- Step 1: collapse duplicate email-decode scripts. -/
def emailFix (c : List Char) : List Char × List String :=
  if hasMatch mEmailDup c then (subst mEmailDup emailTag c, [emailLabel]) else (c, [])

/-- Step 2: duplicate CSS imports, gated on the file identifier containing
the hire-staff marker. -/
def cssFix (fileId c : List Char) : List Char × List String :=
  if hasSub hireStaffL fileId then
    if hasMatch mDupCss c then (subst mDupCss cssRepl c, [cssLabel]) else (c, [])
  else (c, [])

/-- Step 3: collapse duplicate Footer comments. -/
def footerFix (c : List Char) : List Char × List String :=
  if hasMatch mDupFooter c then (subst mDupFooter footerC c, [footerLabel]) else (c, [])

/-- Step 4, verbose form: remove the inline nav script block. -/
def verboseNavFix (c : List Char) : List Char × List String :=
  if hasMatch mVerboseNav c then (subst mVerboseNav [] c, [verboseLabel]) else (c, [])

/-- Step 4, simple form: remove the simpler toggleMenu block. -/
def simpleNavFix (c : List Char) : List Char × List String :=
  if hasMatch mSimpleNav c then (subst mSimpleNav [] c, [simpleLabel]) else (c, [])

/-- Steps 1 to 4 composed, with the applied fix labels in order. -/
def stage4 (fileId c : List Char) : List Char × List String :=
  let p1 := emailFix c
  let p2 := cssFix fileId p1.1
  let p3 := footerFix p2.1
  let p4 := verboseNavFix p3.1
  let p5 := simpleNavFix p4.1
  (p5.1, p1.2 ++ p2.2 ++ p3.2 ++ p4.2 ++ p5.2)

/-- Step 5, first half: unconditionally strip whitespace-preceded nav,
footer and analytics includes (in that order), wherever they match.  The
script performs these three re.sub calls before testing for the closing
body tag. -/
def stripShared (c : List Char) : List Char :=
  subst (mWsThen analTag) [] (subst (mWsThen footTag) [] (subst (mWsThen navTag) [] c))

/-- Step 5, second half: when the closing body tag is present, remove a
utility include immediately preceding it and replace every closing body
tag with the canonical block.  (The script also computes an unused
has_utils flag here, which has no effect and is not modelled.) -/
def sharedFix (c : List Char) : List Char × List String :=
  if hasSub bodyTag c then
    (replaceAll bodyTag blockL (subst mUtilsBody nlBody c), [sharedLabel])
  else (c, [])

/-- Step 5 in full: strip, then normalize the block before the body tag. -/
def sharedStep (c : List Char) : List Char × List String :=
  sharedFix (stripShared c)

/-- Step 6: collapse runs of four or more newlines to three. -/
def collapseBlank (c : List Char) : List Char :=
  subst mNl4 (s2l "\n\n\n") c

structure FixResult where
  newContent : List Char
  fixesApplied : List String
  changed : Bool
deriving DecidableEq, Repr

/-- The pure normalization pipeline of fix_file: steps 1 to 6 in the order
of the script, returning the new content, the applied fix labels, and
whether the content differs from the original. -/
def normalize (fileId content : List Char) : FixResult :=
  let p4 := stage4 fileId content
  let p5 := sharedStep p4.1
  let c6 := collapseBlank p5.1
  ⟨c6, p4.2 ++ p5.2, decide (c6 ≠ content)⟩

/-! ### The I/O driver (fix_file, persistent part) -/

/-- The filesystem as an association list from path to file content. -/
abbrev FS := List (List Char × List Char)

def fsRead : FS → List Char → Option (List Char)
  | [], _ => none
  | (q, d) :: t, p => if q = p then some d else fsRead t p

def fsWrite : FS → List Char → List Char → FS
  | [], p, c => [(p, c)]
  | (q, d) :: t, p, c => if q = p then (p, c) :: t else (q, d) :: fsWrite t p c

/-- fix_file: read the file (skip when missing), normalize, and when the
content changed write the original to path.bak and the new content to
path; returns the updated filesystem and whether the file was fixed. -/
def fix_file (fs : FS) (filepath : List Char) : FS × Bool :=
  match fsRead fs filepath with
  | none => (fs, false)
  | some content =>
    let r := normalize filepath content
    if r.changed then
      (fsWrite (fsWrite fs (filepath ++ s2l ".bak") content) filepath r.newContent, true)
    else (fs, false)

/-! ### Specification-side definition for blank-line collapsing -/

/-- Modelled from the spec: collapse every run of four or more consecutive
newline characters to exactly three newlines and leave runs of three or
fewer untouched.  Used as the specification to compare with the blank-line
rule of the script. -/
def collapseSpecGo : Nat → List Char → List Char
  | _, [] => []
  | 0, s => s
  | fuel + 1, c :: t =>
    if c = '\n' then
      List.replicate (min (runLen (fun d => d == '\n') t + 1) 3) '\n' ++
        collapseSpecGo fuel (t.drop (runLen (fun d => d == '\n') t))
    else c :: collapseSpecGo fuel t

def collapseSpec (s : List Char) : List Char :=
  collapseSpecGo s.length s

/-! ### Lemmas about the matching primitives -/

theorem dropLit?_eq_some {l s r : List Char} :
    dropLit? l s = some r ↔ s = l ++ r := by
  induction l generalizing s with
  | nil => simp [dropLit?]
  | cons a l ih =>
    cases s with
    | nil => simp [dropLit?]
    | cons c cs =>
      by_cases hca : c = a
      · subst hca; simp [dropLit?, ih]
      · simp [dropLit?, hca]

theorem dropLit?_self_append (l r : List Char) : dropLit? l (l ++ r) = some r :=
  dropLit?_eq_some.2 rfl

theorem dropLit?_head_ne {a c : Char} {l s : List Char} (h : c ≠ a) :
    dropLit? (a :: l) (c :: s) = none := by
  simp [dropLit?, h]

theorem dropLit?_none_of_short {l A : List Char} (rest : List Char)
    (hlen : l.length ≤ A.length) (h : dropLit? l A = none) :
    dropLit? l (A ++ rest) = none := by
  induction l generalizing A with
  | nil => simp [dropLit?] at h
  | cons a l ih =>
    cases A with
    | nil => simp at hlen
    | cons c cs =>
      by_cases hca : c = a
      · subst hca
        simp only [dropLit?, if_pos rfl] at h ⊢
        exact ih (by simpa using hlen) h
      · simp [dropLit?, hca]

theorem dropLit?_none_of_long {l A : List Char} (rest : List Char)
    (hlen : A.length ≤ l.length) (h : l.take A.length ≠ A) :
    dropLit? l (A ++ rest) = none := by
  induction l generalizing A with
  | nil =>
    cases A with
    | nil => simp at h
    | cons c cs => simp at hlen
  | cons a l ih =>
    cases A with
    | nil => simp at h
    | cons c cs =>
      by_cases hca : c = a
      · subst hca
        simp only [dropLit?, if_pos rfl, List.cons_append]
        exact ih (by simpa using hlen) (by
          intro he
          exact h (by simp [List.take, he]))
      · simp [dropLit?, hca]

theorem isSome_false {α : Type} {o : Option α} (h : o.isSome = false) :
    o = none := by
  cases o <;> simp_all

theorem runLen_le (p : Char → Bool) : ∀ s : List Char, runLen p s ≤ s.length
  | [] => by simp [runLen]
  | c :: cs => by
    simp only [runLen, List.takeWhile_cons]
    split
    · simpa [runLen] using Nat.succ_le_succ (runLen_le p cs)
    · simp

theorem hasSub_of_head {l s : List Char} (h : (dropLit? l s).isSome) :
    hasSub l s = true := by
  cases s with
  | nil => simpa [hasSub] using h
  | cons c cs => simp [hasSub, h]

theorem hasSub_self_append (l r : List Char) : hasSub l (l ++ r) = true :=
  hasSub_of_head (by simp [dropLit?_self_append])

theorem hasSub_cons {l : List Char} (c : Char) {s : List Char}
    (h : hasSub l s = true) : hasSub l (c :: s) = true := by
  simp [hasSub, h]

theorem hasSub_append_left (x : List Char) {l y : List Char}
    (h : hasSub l y = true) : hasSub l (x ++ y) = true := by
  induction x with
  | nil => simpa
  | cons c cs ih => simpa [List.cons_append] using hasSub_cons c ih

theorem hasMatch_of_head {m : M} {s : List Char} (h : (m s).isSome) :
    hasMatch m s = true := by
  cases s with
  | nil => simpa [hasMatch] using h
  | cons c cs => simp [hasMatch, h]

theorem hasMatch_append_left (x : List Char) {m : M} {y : List Char}
    (h : (m y).isSome) : hasMatch m (x ++ y) = true := by
  induction x with
  | nil => simpa using hasMatch_of_head h
  | cons c cs ih => simp [hasMatch, List.cons_append, ih]

theorem suffix_cons_elim {zs : List Char} {c : Char} {cs : List Char}
    (h : zs <:+ c :: cs) : zs = c :: cs ∨ zs <:+ cs := by
  obtain ⟨t, ht⟩ := h
  cases t with
  | nil => left; simpa using ht
  | cons a t' =>
    right
    refine ⟨t', ?_⟩
    simpa using congrArg List.tail ht

theorem hasMatch_suffix_none {m : M} {s zs : List Char}
    (h : hasMatch m s = false) (hz : zs <:+ s) : m zs = none := by
  induction s generalizing zs with
  | nil =>
    obtain ⟨t, ht⟩ := hz
    have hzn : zs = [] := (List.append_eq_nil.1 ht).2
    subst hzn
    exact isSome_false (by simpa [hasMatch] using h)
  | cons c cs ih =>
    simp only [hasMatch, Bool.or_eq_false_iff] at h
    rcases suffix_cons_elim hz with hz1 | hz2
    · subst hz1
      exact isSome_false h.1
    · exact ih h.2 hz2

theorem hasMatch_append_false {m : M} {xs ys : List Char}
    (h1 : ∀ zs, zs <:+ xs → zs ≠ [] → m (zs ++ ys) = none)
    (h2 : hasMatch m ys = false) : hasMatch m (xs ++ ys) = false := by
  induction xs with
  | nil => simpa using h2
  | cons c cs ih =>
    simp only [List.cons_append, hasMatch, Bool.or_eq_false_iff]
    constructor
    · have := h1 (c :: cs) (List.suffix_refl _) (by simp)
      simpa using this
    · exact ih (fun zs hzs hne => h1 zs (hzs.trans (List.suffix_cons c cs)) hne)

theorem hasSub_suffix_false {l s zs : List Char}
    (h : hasSub l s = false) (hz : zs <:+ s) : hasSub l zs = false := by
  induction s generalizing zs with
  | nil =>
    obtain ⟨t, ht⟩ := hz
    have hzn : zs = [] := (List.append_eq_nil.1 ht).2
    subst hzn; exact h
  | cons c cs ih =>
    simp only [hasSub, Bool.or_eq_false_iff] at h
    rcases suffix_cons_elim hz with hz1 | hz2
    · subst hz1; simp [hasSub, h.1, h.2]
    · exact ih h.2 hz2

/-! ### Consumption invariant of the matchers and the subst lemmas -/

theorem consumes_mLit (l : List Char) : Consumes (mLit l) := by
  intro s n r h
  unfold mLit at h
  split at h
  · rename_i r' hd
    simp only [Option.some.injEq, Prod.mk.injEq] at h
    obtain ⟨h1, h2⟩ := h
    have hs := dropLit?_eq_some.1 hd
    subst hs h1 h2
    exact ⟨(List.drop_left l r').symm, by simp⟩
  · cases h

theorem consumes_mWs : Consumes mWs := by
  intro s n r h
  simp only [mWs, Option.some.injEq, Prod.mk.injEq] at h
  obtain ⟨h1, h2⟩ := h
  subst h1 h2
  exact ⟨rfl, runLen_le _ s⟩

theorem consumes_mNotCh (c : Char) : Consumes (mNotCh c) := by
  intro s n r h
  simp only [mNotCh, Option.some.injEq, Prod.mk.injEq] at h
  obtain ⟨h1, h2⟩ := h
  subst h1 h2
  exact ⟨rfl, runLen_le _ s⟩

theorem consumes_mNotCh1 (c : Char) : Consumes (mNotCh1 c) := by
  intro s n r h
  unfold mNotCh1 at h
  split at h
  · cases h
  · simp only [Option.some.injEq, Prod.mk.injEq] at h
    obtain ⟨h1, h2⟩ := h
    subst h1 h2
    exact ⟨rfl, runLen_le _ s⟩

theorem consumes_mNl4 : Consumes mNl4 := by
  intro s n r h
  unfold mNl4 at h
  split at h
  · simp only [Option.some.injEq, Prod.mk.injEq] at h
    obtain ⟨h1, h2⟩ := h
    subst h1 h2
    exact ⟨rfl, runLen_le _ s⟩
  · cases h

theorem consumes_mSeq {a b : M} (ha : Consumes a) (hb : Consumes b) :
    Consumes (mSeq a b) := by
  intro s n r h
  unfold mSeq at h
  split at h
  · rename_i n1 r1 hda
    split at h
    · rename_i n2 r2 hdb
      simp only [Option.some.injEq, Prod.mk.injEq] at h
      obtain ⟨h1, h2⟩ := h
      subst h2
      obtain ⟨ha1, ha2⟩ := ha s n1 r1 hda
      obtain ⟨hb1, hb2⟩ := hb r1 n2 r2 hdb
      subst ha1
      constructor
      · rw [hb1, List.drop_drop, h1]
      · rw [← h1]
        have := List.length_drop n1 s
        omega
    · cases h
  · cases h

theorem consumes_mOpt {a : M} (ha : Consumes a) : Consumes (mOpt a) := by
  intro s n r h
  unfold mOpt at h
  split at h
  · rename_i x hda
    simp only [Option.some.injEq] at h
    subst h
    exact ha s n r hda
  · simp only [Option.some.injEq, Prod.mk.injEq] at h
    obtain ⟨h1, h2⟩ := h
    subst h1 h2
    exact ⟨rfl, by omega⟩

theorem substGo_fuel (m : M) (repl : List Char) :
    ∀ f1 f2 s, s.length ≤ f1 → s.length ≤ f2 →
      substGo m repl f1 s = substGo m repl f2 s := by
  intro f1
  induction f1 with
  | zero =>
    intro f2 s h1 h2
    have hs : s = [] := List.eq_nil_of_length_eq_zero (Nat.le_zero.1 h1)
    subst hs
    cases f2 <;> rfl
  | succ g ih =>
    intro f2 s h1 h2
    cases s with
    | nil => cases f2 <;> rfl
    | cons c cs =>
      cases f2 with
      | zero => simp at h2
      | succ f =>
        cases hd : m (c :: cs) with
        | none =>
          simp only [substGo, hd]
          rw [ih f cs (by simpa using h1) (by simpa using h2)]
        | some p =>
          obtain ⟨n, r⟩ := p
          simp only [substGo, hd]
          simp only [List.length_cons] at h1 h2
          rw [ih f (cs.drop (n - 1)) (by simp only [List.length_drop]; omega)
            (by simp only [List.length_drop]; omega)]

theorem subst_nil (m : M) (repl : List Char) : subst m repl [] = [] := rfl

theorem subst_cons_some_raw {m : M} {c : Char} {cs r : List Char} {n : Nat}
    (repl : List Char) (h : m (c :: cs) = some (n, r)) :
    subst m repl (c :: cs) = repl ++ subst m repl (cs.drop (n - 1)) := by
  show substGo m repl (cs.length + 1) (c :: cs) = repl ++ subst m repl (cs.drop (n - 1))
  simp only [substGo, h]
  congr 1
  exact substGo_fuel m repl cs.length (cs.drop (n - 1)).length _
    (by simp [List.length_drop]) (Nat.le_refl _)

theorem subst_cons_none {m : M} {c : Char} {cs : List Char} (repl : List Char)
    (h : m (c :: cs) = none) :
    subst m repl (c :: cs) = c :: subst m repl cs := by
  show substGo m repl (cs.length + 1) (c :: cs) = c :: substGo m repl cs.length cs
  simp only [substGo, h]

theorem subst_cons_some {m : M} {c : Char} {cs r : List Char} {n : Nat}
    (repl : List Char) (hm : Consumes m) (h : m (c :: cs) = some (n, r))
    (hn : 1 ≤ n) :
    subst m repl (c :: cs) = repl ++ subst m repl r := by
  rw [subst_cons_some_raw repl h]
  obtain ⟨hr, -⟩ := hm _ _ _ h
  subst hr
  obtain ⟨k, hk⟩ := Nat.exists_eq_add_of_le hn
  subst hk
  rw [show (1 + k = k + 1) from Nat.add_comm 1 k, List.drop_succ_cons]
  simp

theorem subst_no_match {m : M} {s : List Char} (repl : List Char)
    (h : hasMatch m s = false) : subst m repl s = s := by
  induction s with
  | nil => exact subst_nil m repl
  | cons c cs ih =>
    simp only [hasMatch, Bool.or_eq_false_iff] at h
    rw [subst_cons_none repl (isSome_false h.1)]
    rw [ih h.2]

theorem subst_emits_repl {m : M} {s : List Char} (repl : List Char)
    (hnil : m [] = none) (h : hasMatch m s = true) :
    ∃ x y, subst m repl s = x ++ repl ++ y := by
  induction s with
  | nil => simp [hasMatch, hnil] at h
  | cons c cs ih =>
    cases hd : m (c :: cs) with
    | none =>
      simp only [hasMatch, hd, Option.isSome_none, Bool.false_or] at h
      obtain ⟨x, y, hxy⟩ := ih h
      exact ⟨c :: x, y, by rw [subst_cons_none repl hd, hxy]; simp⟩
    | some p =>
      obtain ⟨n, r⟩ := p
      rw [subst_cons_some_raw repl hd]
      exact ⟨[], subst m repl (cs.drop (n - 1)), by simp⟩

/-! ### Evaluation lemmas for the matchers on structured text -/

theorem mLit_self_append (l r : List Char) : mLit l (l ++ r) = some (l.length, r) := by
  simp [mLit, dropLit?_self_append]

theorem mLit_none {l s : List Char} (h : dropLit? l s = none) : mLit l s = none := by
  simp [mLit, h]

theorem mLit_none_of_head {l s : List Char} {c a : Char}
    (hl : l.head? = some a) (hc : c ≠ a) : mLit l (c :: s) = none := by
  cases l with
  | nil => simp at hl
  | cons b l' =>
    have hb : b = a := by simpa using hl
    subst hb
    exact mLit_none (dropLit?_head_ne hc)

theorem mSeq_some {a b : M} {s r r2 : List Char} {n n2 : Nat}
    (h1 : a s = some (n, r)) (h2 : b r = some (n2, r2)) :
    mSeq a b s = some (n + n2, r2) := by
  simp [mSeq, h1, h2]

theorem mSeq_none1 {a b : M} {s : List Char} (h : a s = none) :
    mSeq a b s = none := by
  simp [mSeq, h]

theorem mSeq_none2 {a b : M} {s r : List Char} {n : Nat}
    (h1 : a s = some (n, r)) (h2 : b r = none) : mSeq a b s = none := by
  simp [mSeq, h1, h2]

theorem mOpt_commit {a : M} {s : List Char} {x : Nat × List Char}
    (h : a s = some x) : mOpt a s = some x := by
  simp [mOpt, h]

theorem mOpt_skip {a : M} {s : List Char} (h : a s = none) :
    mOpt a s = some (0, s) := by
  simp [mOpt, h]

/-- The matcher of a pattern starting with a literal fails at every
position whose first character differs from the head of the literal. -/
theorem headLt_fail {l : List Char} (k : M) {c a : Char} {t : List Char}
    (hl : l.head? = some a) (hc : c ≠ a) :
    mSeq (mLit l) k (c :: t) = none :=
  mSeq_none1 (mLit_none_of_head hl hc)

theorem takeWhile_nil_of_head {p : Char → Bool} {c : Char} {t : List Char}
    (hc : p c = false) : (c :: t).takeWhile p = [] :=
  List.takeWhile_cons_of_neg (by simp [hc])

theorem takeWhile_append_nil {p : Char → Bool} {l : List Char} (s : List Char)
    {a : Char} (hl : l.head? = some a) (ha : p a = false) :
    (l ++ s).takeWhile p = [] := by
  cases l with
  | nil => simp at hl
  | cons b l' =>
    have hb : b = a := by simpa using hl
    subst hb
    exact takeWhile_nil_of_head ha

theorem takeWhile_append_all {p : Char → Bool} {w t : List Char}
    (hw : ∀ c ∈ w, p c = true) (ht : t.takeWhile p = []) :
    (w ++ t).takeWhile p = w := by
  induction w with
  | nil => simpa using ht
  | cons c cs ih =>
    have hc : p c = true := hw c (by simp)
    simp only [List.cons_append, List.takeWhile_cons_of_pos hc]
    rw [ih (fun d hd => hw d (by simp [hd]))]

theorem mWs_eval {w t : List Char} (hw : ∀ c ∈ w, isSp c = true)
    (ht : t.takeWhile isSp = []) : mWs (w ++ t) = some (w.length, t) := by
  have h1 : (w ++ t).takeWhile isSp = w := takeWhile_append_all hw ht
  simp [mWs, runLen, h1, List.drop_left]

theorem mNotCh_eval {ch : Char} {w t : List Char}
    (hw : ∀ c ∈ w, (c == ch) = false)
    (ht : t.takeWhile (fun d => !(d == ch)) = []) :
    mNotCh ch (w ++ t) = some (w.length, t) := by
  have h1 : (w ++ t).takeWhile (fun d => !(d == ch)) = w :=
    takeWhile_append_all (fun c hc => by simp [hw c hc]) ht
  simp [mNotCh, runLen, h1, List.drop_left]

theorem mNotCh1_eval {ch : Char} {w t : List Char} (hne : w ≠ [])
    (hw : ∀ c ∈ w, (c == ch) = false)
    (ht : t.takeWhile (fun d => !(d == ch)) = []) :
    mNotCh1 ch (w ++ t) = some (w.length, t) := by
  have h1 : (w ++ t).takeWhile (fun d => !(d == ch)) = w :=
    takeWhile_append_all (fun c hc => by simp [hw c hc]) ht
  have h2 : w.length ≠ 0 := by simpa [List.length_eq_zero] using hne
  simp [mNotCh1, runLen, h1, h2, List.drop_left]

theorem subst_match (m : M) (repl : List Char) {s r : List Char} {n : Nat}
    (hm : Consumes m) (h : m s = some (n, r)) (hn : 1 ≤ n) (hs : s ≠ []) :
    subst m repl s = repl ++ subst m repl r := by
  obtain ⟨c, cs, rfl⟩ := List.exists_cons_of_ne_nil hs
  exact subst_cons_some repl hm h hn

/-! ### Consumption facts for the matchers of the script -/

theorem consumes_mEmailDup : Consumes mEmailDup :=
  consumes_mSeq (consumes_mLit _) (consumes_mSeq consumes_mWs (consumes_mLit _))

theorem consumes_mDupCss : Consumes mDupCss :=
  consumes_mSeq (consumes_mLit _) (consumes_mSeq consumes_mWs (consumes_mLit _))

theorem consumes_mDupFooter : Consumes mDupFooter :=
  consumes_mSeq (consumes_mLit _) (consumes_mSeq consumes_mWs (consumes_mLit _))

theorem consumes_mVerboseNav : Consumes mVerboseNav :=
  consumes_mSeq (consumes_mLit _)
    (consumes_mSeq consumes_mWs
      (consumes_mSeq (consumes_mOpt (consumes_mSeq (consumes_mLit _) consumes_mWs))
        (consumes_mSeq (consumes_mLit _)
          (consumes_mSeq consumes_mWs
            (consumes_mSeq (consumes_mLit _)
              (consumes_mSeq (consumes_mNotCh1 _)
                (consumes_mSeq (consumes_mLit _)
                  (consumes_mSeq (consumes_mNotCh _) (consumes_mLit _)))))))))

theorem consumes_mSimpleNav : Consumes mSimpleNav :=
  consumes_mSeq (consumes_mLit _)
    (consumes_mSeq consumes_mWs
      (consumes_mSeq (consumes_mLit _)
        (consumes_mSeq (consumes_mNotCh1 _) (consumes_mLit _))))

theorem consumes_mWsThen (l : List Char) : Consumes (mWsThen l) :=
  consumes_mSeq consumes_mWs (consumes_mLit _)

theorem consumes_mUtilsBody : Consumes mUtilsBody :=
  consumes_mSeq consumes_mWs
    (consumes_mSeq (consumes_mLit _) (consumes_mSeq consumes_mWs (consumes_mLit _)))

/-! ### The duplicate email-decode pattern on an adjacent pair -/

theorem mEmailDup_pair {w s : List Char} (hw : ∀ c ∈ w, isSp c = true) :
    mEmailDup (emailTag ++ (w ++ (emailTag ++ s))) =
      some (emailTag.length + (w.length + emailTag.length), s) := by
  have h1 := mLit_self_append emailTag (w ++ (emailTag ++ s))
  have h2 : mWs (w ++ (emailTag ++ s)) = some (w.length, emailTag ++ s) :=
    mWs_eval hw (takeWhile_append_nil (a := '<') s (by decide) (by decide))
  have h3 := mLit_self_append emailTag s
  exact mSeq_some h1 (mSeq_some h2 h3)

/-- Leftmost substitution on a text whose first email-decode pair starts
after a position-free prefix: the pair collapses to a single tag and the
scan continues after it. -/
theorem subst_email_pair {p w s : List Char} (hp : ∀ c ∈ p, c ≠ '<')
    (hw : ∀ c ∈ w, isSp c = true) :
    subst mEmailDup emailTag (p ++ (emailTag ++ (w ++ (emailTag ++ s)))) =
      p ++ (emailTag ++ subst mEmailDup emailTag s) := by
  induction p with
  | nil =>
    simp only [List.nil_append]
    have hm := mEmailDup_pair (s := s) hw
    have hsne : emailTag ++ (w ++ (emailTag ++ s)) ≠ [] := by
      have : emailTag ≠ [] := by decide
      simp [this]
    rw [subst_match _ _ consumes_mEmailDup hm
      (Nat.le_trans (by decide) (Nat.le_add_right emailTag.length (w.length + emailTag.length))) hsne]
  | cons c cs ih =>
    have hcne : c ≠ '<' := hp c (by simp)
    have hnone : mEmailDup (c :: (cs ++ (emailTag ++ (w ++ (emailTag ++ s))))) = none :=
      headLt_fail _ (by decide) hcne
    rw [List.cons_append, subst_cons_none _ hnone,
      ih (fun d hd => hp d (by simp [hd]))]
    simp

/-! ### Structure of the pipeline result -/

theorem normalize_fixes (fileId c : List Char) :
    (normalize fileId c).fixesApplied =
      (stage4 fileId c).2 ++ (sharedStep (stage4 fileId c).1).2 := rfl

theorem normalize_content (fileId c : List Char) :
    (normalize fileId c).newContent =
      collapseBlank ((sharedStep (stage4 fileId c).1).1) := rfl

theorem emailLabel_mem {fileId x : List Char} (h : hasMatch mEmailDup x = true) :
    emailLabel ∈ (normalize fileId x).fixesApplied := by
  rw [normalize_fixes]
  apply List.mem_append_left
  have he : (emailFix x).2 = [emailLabel] := by simp [emailFix, h]
  simp only [stage4]
  exact List.mem_append_left _ (by rw [he]; simp)

/-! ### Claim theorems -/

/-- C1: the spec demands that applying the pipeline twice is a no-op
(changed = false, byte-identical content) for every input, including
three or more adjacent duplicate tags.  The code violates this: on three
adjacent email-decode tags the first pass collapses only the first pair
(leaving a new adjacent pair) and the second pass still reports a change
and collapses again.  This theorem evaluates the pipeline at that failing
input. -/
theorem c1_nonidempotent :
    (normalize (s2l "index.html") (emailTag ++ emailTag ++ emailTag)).changed = true
    ∧ (normalize (s2l "index.html") (emailTag ++ emailTag ++ emailTag)).newContent
        = emailTag ++ emailTag
    ∧ (normalize (s2l "index.html")
        ((normalize (s2l "index.html") (emailTag ++ emailTag ++ emailTag)).newContent)).changed
        = true
    ∧ (normalize (s2l "index.html")
        ((normalize (s2l "index.html") (emailTag ++ emailTag ++ emailTag)).newContent)).newContent
        = emailTag := by
  refine ⟨by decide, by decide, by decide, by decide⟩

/-- C4: on the input "<p>hi</p>\n</body>" the pipeline appends the
canonical four-line shared-script block (utility, nav, footer, analytics,
in that order) immediately before the closing body tag, each include
occurring exactly once in the output. -/
theorem c4_canonical_block :
    (normalize (s2l "index.html") (s2l "<p>hi</p>\n</body>")).newContent
        = s2l "<p>hi</p>\n" ++ blockL
    ∧ List.isSuffixOf blockL
        ((normalize (s2l "index.html") (s2l "<p>hi</p>\n</body>")).newContent) = true
    ∧ countSub utilsTag
        ((normalize (s2l "index.html") (s2l "<p>hi</p>\n</body>")).newContent) = 1
    ∧ countSub navTag
        ((normalize (s2l "index.html") (s2l "<p>hi</p>\n</body>")).newContent) = 1
    ∧ countSub footTag
        ((normalize (s2l "index.html") (s2l "<p>hi</p>\n</body>")).newContent) = 1
    ∧ countSub analTag
        ((normalize (s2l "index.html") (s2l "<p>hi</p>\n</body>")).newContent) = 1
    ∧ (normalize (s2l "index.html") (s2l "<p>hi</p>\n</body>")).fixesApplied = [sharedLabel]
    ∧ (normalize (s2l "index.html") (s2l "<p>hi</p>\n</body>")).changed = true := by
  refine ⟨by decide, by decide, by decide, by decide, by decide, by decide, by decide, by decide⟩

/-- C5: an input containing two adjacent identical email-decode tags
separated only by whitespace (at the first tag occurrence: the preceding
text contains no opening angle bracket) gets the pair collapsed to a
single tag by the email rule, the email fix label is reported by the
pipeline, and the rule is a no-op (with no label) on text without the
adjacent pattern, so non-adjacent duplicates are left alone. -/
theorem c5_email_collapse (fileId p w s : List Char)
    (hp : ∀ c ∈ p, c ≠ '<') (hw : ∀ c ∈ w, isSp c = true) :
    emailLabel ∈
      (normalize fileId (p ++ (emailTag ++ (w ++ (emailTag ++ s))))).fixesApplied
    ∧ subst mEmailDup emailTag (p ++ (emailTag ++ (w ++ (emailTag ++ s)))) =
        p ++ (emailTag ++ subst mEmailDup emailTag s)
    ∧ (hasMatch mEmailDup s = false →
        subst mEmailDup emailTag s = s ∧ emailFix s = (s, [])) := by
  refine ⟨?_, subst_email_pair hp hw, ?_⟩
  · apply emailLabel_mem
    apply hasMatch_append_left
    rw [mEmailDup_pair hw]
    simp
  · intro h
    refine ⟨subst_no_match _ h, ?_⟩
    simp [emailFix, h]

/-- Witness for C5 at a concrete input. -/
theorem c5_email_collapse_witness :
    emailLabel ∈
      (normalize (s2l "x.html")
        ((s2l "ab") ++ (emailTag ++ ([' '] ++ (emailTag ++ s2l "cd"))))).fixesApplied
    ∧ subst mEmailDup emailTag
        ((s2l "ab") ++ (emailTag ++ ([' '] ++ (emailTag ++ s2l "cd")))) =
        (s2l "ab") ++ (emailTag ++ subst mEmailDup emailTag (s2l "cd"))
    ∧ (hasMatch mEmailDup (s2l "cd") = false →
        subst mEmailDup emailTag (s2l "cd") = s2l "cd"
        ∧ emailFix (s2l "cd") = (s2l "cd", [])) :=
  c5_email_collapse (s2l "x.html") (s2l "ab") [' '] (s2l "cd") (by decide) (by decide)

/-- C9: the driver mutates the filesystem exactly when the normalized
content differs from the original: it then writes the pre-transform
content to path.bak and the new content to path; on a missing file or
unchanged content nothing is written. -/
theorem c9_driver_writes (fs : FS) (path : List Char) :
    (fsRead fs path = none → fix_file fs path = (fs, false))
    ∧ (∀ c, fsRead fs path = some c → (normalize path c).changed = false →
        fix_file fs path = (fs, false))
    ∧ (∀ c, fsRead fs path = some c → (normalize path c).changed = true →
        fix_file fs path =
          (fsWrite (fsWrite fs (path ++ s2l ".bak") c) path
            (normalize path c).newContent, true)) := by
  refine ⟨?_, ?_, ?_⟩
  · intro h; simp [fix_file, h]
  · intro c h hc; simp [fix_file, h, hc]
  · intro c h hc; simp [fix_file, h, hc]

/-- Witness for C9: a present file with unchanged content is not
rewritten, and a missing file is skipped. -/
theorem c9_driver_writes_witness :
    fix_file [(s2l "i.html", s2l "x")] (s2l "i.html") =
      ([(s2l "i.html", s2l "x")], false)
    ∧ fix_file [] (s2l "j.html") = ([], false) :=
  ⟨(c9_driver_writes [(s2l "i.html", s2l "x")] (s2l "i.html")).2.1
      (s2l "x") (by decide) (by decide),
    (c9_driver_writes [] (s2l "j.html")).1 (by decide)⟩

/-- C10: the blank-line-collapsing step appends no fix label: the label
sequence of the pipeline is fully determined before step 6, and on an
input whose only issue is a long newline run the pipeline reports
changed = true with an empty label list, and the driver still rewrites
the file and creates a backup. -/
theorem c10_change_without_label :
    normalize (s2l "contact.html") (s2l "a\n\n\n\n\nb") = ⟨s2l "a\n\n\nb", [], true⟩
    ∧ fix_file [(s2l "contact.html", s2l "a\n\n\n\n\nb")] (s2l "contact.html") =
        ([(s2l "contact.html", s2l "a\n\n\nb"),
          (s2l "contact.html" ++ s2l ".bak", s2l "a\n\n\n\n\nb")], true)
    ∧ (∀ fileId c : List Char, (normalize fileId c).fixesApplied =
        (stage4 fileId c).2 ++ (sharedStep (stage4 fileId c).1).2) :=
  ⟨by decide, by decide, fun fileId c => rfl⟩

/-! ### Label bookkeeping of steps 1 to 4 -/

theorem cssLabel_not_mem_stage4 {fileId c : List Char}
    (h : hasSub hireStaffL fileId = false) :
    cssLabel ∉ (stage4 fileId c).2 := by
  intro hmem
  simp only [stage4, List.mem_append] at hmem
  rcases hmem with ((((h1 | h1) | h1) | h1) | h1)
  · unfold emailFix at h1
    split at h1 <;> dsimp only at h1 <;> exact absurd h1 (by decide)
  · simp [cssFix, h] at h1
  · unfold footerFix at h1
    split at h1 <;> dsimp only at h1 <;> exact absurd h1 (by decide)
  · unfold verboseNavFix at h1
    split at h1 <;> dsimp only at h1 <;> exact absurd h1 (by decide)
  · unfold simpleNavFix at h1
    split at h1 <;> dsimp only at h1 <;> exact absurd h1 (by decide)

theorem sharedLabel_not_mem_stage4 (fileId c : List Char) :
    sharedLabel ∉ (stage4 fileId c).2 := by
  intro hmem
  simp only [stage4, List.mem_append] at hmem
  rcases hmem with ((((h1 | h1) | h1) | h1) | h1)
  · unfold emailFix at h1
    split at h1 <;> dsimp only at h1 <;> exact absurd h1 (by decide)
  · unfold cssFix at h1
    split at h1
    · split at h1 <;> dsimp only at h1 <;> exact absurd h1 (by decide)
    · dsimp only at h1; exact absurd h1 (by decide)
  · unfold footerFix at h1
    split at h1 <;> dsimp only at h1 <;> exact absurd h1 (by decide)
  · unfold verboseNavFix at h1
    split at h1 <;> dsimp only at h1 <;> exact absurd h1 (by decide)
  · unfold simpleNavFix at h1
    split at h1 <;> dsimp only at h1 <;> exact absurd h1 (by decide)

/-! ### Substring insertion facts for step 5 -/

theorem mLit_isSome (l s : List Char) :
    (mLit l s).isSome = (dropLit? l s).isSome := by
  unfold mLit
  cases dropLit? l s <;> simp

theorem hasMatch_mLit (l : List Char) : ∀ s, hasMatch (mLit l) s = hasSub l s
  | [] => by simp [hasMatch, hasSub, mLit_isSome]
  | c :: cs => by simp [hasMatch, hasSub, mLit_isSome, hasMatch_mLit l cs]

/-- The utility-include removal before the body tag preserves the
presence of the body tag (its replacement text ends with the tag). -/
theorem bodyTag_hasSub_utilsSub {c : List Char} (h : hasSub bodyTag c = true) :
    hasSub bodyTag (subst mUtilsBody nlBody c) = true := by
  by_cases hm : hasMatch mUtilsBody c = true
  · obtain ⟨x, y, hxy⟩ := subst_emits_repl nlBody (by decide) hm
    rw [hxy, List.append_assoc]
    apply hasSub_append_left
    show hasSub bodyTag ('\n' :: (bodyTag ++ y)) = true
    exact hasSub_cons _ (hasSub_self_append _ _)
  · have hf : hasMatch mUtilsBody c = false := by simpa using hm
    rw [subst_no_match _ hf]
    exact h

/-- Replacing the body tag inserts the canonical block into the text. -/
theorem hasSub_replaceAll_blockL {c : List Char} (h : hasSub bodyTag c = true) :
    hasSub blockL (replaceAll bodyTag blockL c) = true := by
  have hm : hasMatch (mLit bodyTag) c = true := by rw [hasMatch_mLit]; exact h
  obtain ⟨x, y, hxy⟩ := subst_emits_repl blockL (by decide) hm
  rw [replaceAll, hxy, List.append_assoc]
  exact hasSub_append_left x (hasSub_self_append _ _)

/-! ### Claim theorems for C2, C3 and C6 -/

/-- C2 as stated is false: the stripping of nav, footer and analytics
includes is performed unconditionally, before the end-of-document test,
so an input without the closing body tag still loses its nav include
(and no other rule fired, as the empty label list shows). -/
theorem c2_claim_false :
    hasSub bodyTag
      (s2l "<p>a</p>\n<script src=\"/vergo-nav.js\"></script>\n<p>b</p>") = false
    ∧ (normalize (s2l "index.html")
        (s2l "<p>a</p>\n<script src=\"/vergo-nav.js\"></script>\n<p>b</p>")).newContent
        = s2l "<p>a</p>\n<p>b</p>"
    ∧ (normalize (s2l "index.html")
        (s2l "<p>a</p>\n<script src=\"/vergo-nav.js\"></script>\n<p>b</p>")).newContent
        ≠ s2l "<p>a</p>\n<script src=\"/vergo-nav.js\"></script>\n<p>b</p>"
    ∧ (normalize (s2l "index.html")
        (s2l "<p>a</p>\n<script src=\"/vergo-nav.js\"></script>\n<p>b</p>")).fixesApplied
        = [] := by
  refine ⟨by decide, by decide, by decide, by decide⟩

/-- C2 amended: when the content reaching step 5 (after the earlier rules
and the unconditional stripping of nav, footer and analytics includes)
has no closing body tag, no canonical block is inserted and no shared
label is appended: the output is exactly that stripped content with only
blank-line collapsing applied, and the labels are exactly those of the
earlier rules. -/
theorem c2_amended (fileId c : List Char)
    (h : hasSub bodyTag (stripShared (stage4 fileId c).1) = false) :
    (normalize fileId c).newContent = collapseBlank (stripShared (stage4 fileId c).1)
    ∧ (normalize fileId c).fixesApplied = (stage4 fileId c).2
    ∧ sharedLabel ∉ (normalize fileId c).fixesApplied := by
  have hshared : sharedStep (stage4 fileId c).1 = (stripShared (stage4 fileId c).1, []) := by
    simp [sharedStep, sharedFix, h]
  refine ⟨?_, ?_, ?_⟩
  · rw [normalize_content, hshared]
  · rw [normalize_fixes, hshared]; simp
  · rw [normalize_fixes, hshared]
    simp only [List.append_nil]
    exact sharedLabel_not_mem_stage4 fileId c

/-- Witness for C2 at a concrete input without the body marker. -/
theorem c2_amended_witness :
    (normalize (s2l "n.html") (s2l "<p>a</p>")).newContent
        = collapseBlank (stripShared (stage4 (s2l "n.html") (s2l "<p>a</p>")).1)
    ∧ (normalize (s2l "n.html") (s2l "<p>a</p>")).fixesApplied
        = (stage4 (s2l "n.html") (s2l "<p>a</p>")).2
    ∧ sharedLabel ∉ (normalize (s2l "n.html") (s2l "<p>a</p>")).fixesApplied :=
  c2_amended (s2l "n.html") (s2l "<p>a</p>") (by decide)

/-- C3 as stated is false: a pre-existing utility include that does not
immediately precede the closing body tag is not stripped, so the output
contains a stray utility include in addition to the one of the inserted
block (two occurrences in total). -/
theorem c3_claim_false :
    hasSub bodyTag
      (s2l "<script src=\"/vergo-utils.js\"></script><p>hi</p>\n</body>") = true
    ∧ countSub utilsTag
        ((normalize (s2l "index.html")
          (s2l "<script src=\"/vergo-utils.js\"></script><p>hi</p>\n</body>")).newContent) = 2
    ∧ (normalize (s2l "index.html")
        (s2l "<script src=\"/vergo-utils.js\"></script><p>hi</p>\n</body>")).newContent
        = s2l "<script src=\"/vergo-utils.js\"></script><p>hi</p>\n" ++ blockL := by
  refine ⟨by decide, by decide, by decide⟩

/-- C3 amended: when the content reaching step 5 still has a closing body
tag after stripping, the step removes a utility include only when it
immediately precedes the tag (whitespace-separated), then replaces every
closing body tag with the canonical block, so the output contains the
canonical block (a utility include elsewhere may remain); re-running the
full step on the canonical output of the fixture reproduces exactly the
same content. -/
theorem c3_amended (c : List Char)
    (h : hasSub bodyTag (stripShared c) = true) :
    sharedStep c =
      (replaceAll bodyTag blockL (subst mUtilsBody nlBody (stripShared c)), [sharedLabel])
    ∧ hasSub blockL (sharedStep c).1 = true
    ∧ (sharedStep ((sharedStep (s2l "<p>hi</p>\n</body>")).1)).1
        = (sharedStep (s2l "<p>hi</p>\n</body>")).1 := by
  refine ⟨?_, ?_, by decide⟩
  · simp [sharedStep, sharedFix, h]
  · have h2 := bodyTag_hasSub_utilsSub (c := stripShared c) h
    have h3 := hasSub_replaceAll_blockL h2
    simp only [sharedStep, sharedFix, h, if_true]
    exact h3

/-- Witness for C3 at a concrete input with the body marker. -/
theorem c3_amended_witness :
    hasSub blockL ((sharedStep (s2l "<p>q</p>\n</body>")).1) = true :=
  (c3_amended (s2l "<p>q</p>\n</body>") (by decide)).2.1

/-- C6: the file-scoped stylesheet rule fires exactly when the file
identifier contains the hire-staff marker and the three-tag pattern is
present; for any other identifier it returns the content unchanged with
no label, and the css label never reaches the pipeline output. -/
theorem c6_css_gating (fileId c : List Char) :
    (hasSub hireStaffL fileId = false → cssFix fileId c = (c, []))
    ∧ (hasSub hireStaffL fileId = true → hasMatch mDupCss c = true →
        cssFix fileId c = (subst mDupCss cssRepl c, [cssLabel]))
    ∧ (hasSub hireStaffL fileId = false →
        cssLabel ∉ (normalize fileId c).fixesApplied) := by
  refine ⟨fun h => by simp [cssFix, h], fun h1 h2 => by simp [cssFix, h1, h2], ?_⟩
  intro h hmem
  rw [normalize_fixes] at hmem
  rcases List.mem_append.1 hmem with h4 | h5
  · exact cssLabel_not_mem_stage4 h h4
  · unfold sharedStep sharedFix at h5
    split at h5 <;> dsimp only at h5 <;> exact absurd h5 (by decide)

/-- Witness for C6: same content under hire-staff and non hire-staff
identifiers. -/
theorem c6_css_gating_witness :
    cssFix (s2l "about.html") (mobileCss ++ stylesCss ++ mobileCss)
        = (mobileCss ++ stylesCss ++ mobileCss, [])
    ∧ cssFix (s2l "hire-staff.html") (mobileCss ++ stylesCss ++ mobileCss)
        = (subst mDupCss cssRepl (mobileCss ++ stylesCss ++ mobileCss), [cssLabel])
    ∧ cssLabel ∉
        (normalize (s2l "about.html") (mobileCss ++ stylesCss ++ mobileCss)).fixesApplied :=
  ⟨(c6_css_gating (s2l "about.html") (mobileCss ++ stylesCss ++ mobileCss)).1 (by decide),
    (c6_css_gating (s2l "hire-staff.html") (mobileCss ++ stylesCss ++ mobileCss)).2.1
      (by decide) (by decide),
    (c6_css_gating (s2l "about.html") (mobileCss ++ stylesCss ++ mobileCss)).2.2 (by decide)⟩

/-! ### Blank-line collapsing agrees with the run-based specification -/

theorem runLen_cons_pos {p : Char → Bool} {c : Char} {cs : List Char}
    (h : p c = true) : runLen p (c :: cs) = runLen p cs + 1 := by
  unfold runLen
  rw [List.takeWhile_cons]
  simp [h]

theorem runLen_cons_neg {p : Char → Bool} {c : Char} {cs : List Char}
    (h : p c = false) : runLen p (c :: cs) = 0 := by
  unfold runLen
  rw [List.takeWhile_cons]
  simp [h]

theorem takeWhile_eq_replicate_nl :
    ∀ s : List Char, s.takeWhile (fun d => d == '\n') =
      List.replicate (runLen (fun d => d == '\n') s) '\n'
  | [] => rfl
  | c :: cs => by
    by_cases hc : c = '\n'
    · subst hc
      rw [runLen_cons_pos (p := fun d => d == '\n') (by simp),
        List.takeWhile_cons_of_pos (by simp)]
      rw [takeWhile_eq_replicate_nl cs]
      rfl
    · rw [runLen_cons_neg (p := fun d => d == '\n') (by simp [hc]),
        List.takeWhile_cons_of_neg (by simp [hc])]
      rfl

theorem dropWhile_eq_drop (p : Char → Bool) :
    ∀ s : List Char, s.dropWhile p = s.drop (runLen p s)
  | [] => rfl
  | c :: cs => by
    by_cases hc : p c = true
    · rw [List.dropWhile_cons_of_pos hc, runLen_cons_pos hc, List.drop_succ_cons,
        dropWhile_eq_drop p cs]
    · have hc' : p c = false := by simpa using hc
      rw [List.dropWhile_cons_of_neg (by simp [hc']), runLen_cons_neg hc']
      simp

theorem nl_decomp (s : List Char) :
    List.replicate (runLen (fun d => d == '\n') s) '\n' ++
      s.drop (runLen (fun d => d == '\n') s) = s := by
  conv_rhs => rw [← List.takeWhile_append_dropWhile (p := fun d => d == '\n') (l := s)]
  rw [takeWhile_eq_replicate_nl, dropWhile_eq_drop]

theorem drop_isSuffix (s : List Char) (n : Nat) : s.drop n <:+ s :=
  ⟨s.take n, List.take_append_drop n s⟩

theorem mNl4_pos {s : List Char} (h : 4 ≤ runLen (fun d => d == '\n') s) :
    mNl4 s = some (runLen (fun d => d == '\n') s,
      s.drop (runLen (fun d => d == '\n') s)) := by
  simp [mNl4, h]

theorem mNl4_neg {s : List Char} (h : ¬ 4 ≤ runLen (fun d => d == '\n') s) :
    mNl4 s = none := by
  simp [mNl4, h]

theorem collapseSpecGo_fuel :
    ∀ f1 f2 s, s.length ≤ f1 → s.length ≤ f2 →
      collapseSpecGo f1 s = collapseSpecGo f2 s := by
  intro f1
  induction f1 with
  | zero =>
    intro f2 s h1 h2
    have hs : s = [] := List.eq_nil_of_length_eq_zero (Nat.le_zero.1 h1)
    subst hs
    cases f2 <;> rfl
  | succ g ih =>
    intro f2 s h1 h2
    cases s with
    | nil => cases f2 <;> rfl
    | cons c t =>
      cases f2 with
      | zero => simp at h2
      | succ f =>
        simp only [List.length_cons] at h1 h2
        by_cases hc : c = '\n'
        · simp only [collapseSpecGo, if_pos hc]
          rw [ih f (t.drop (runLen (fun d => d == '\n') t))
            (by simp only [List.length_drop]; omega)
            (by simp only [List.length_drop]; omega)]
        · simp only [collapseSpecGo, if_neg hc]
          rw [ih f t (by omega) (by omega)]

theorem collapseSpec_cons_nl (t : List Char) :
    collapseSpec ('\n' :: t) =
      List.replicate (min (runLen (fun d => d == '\n') t + 1) 3) '\n' ++
        collapseSpec (t.drop (runLen (fun d => d == '\n') t)) := by
  show collapseSpecGo (t.length + 1) ('\n' :: t) = _
  simp only [collapseSpecGo]
  split
  · congr 1
    exact collapseSpecGo_fuel t.length
      (t.drop (runLen (fun d => d == '\n') t)).length
      (t.drop (runLen (fun d => d == '\n') t))
      (by simp only [List.length_drop]; omega) (Nat.le_refl _)
  · rename_i hne
    exact absurd trivial hne

theorem collapseSpec_cons_other {c : Char} (t : List Char) (hc : c ≠ '\n') :
    collapseSpec (c :: t) = c :: collapseSpec t := by
  show collapseSpecGo (t.length + 1) (c :: t) = c :: collapseSpecGo t.length t
  simp only [collapseSpecGo]
  split
  · rename_i heq
    exact absurd heq hc
  · rfl

/-- Unrolling the specification once over a short leading newline run. -/
theorem spec_unroll {t : List Char} (h : runLen (fun d => d == '\n') t ≤ 2) :
    collapseSpec t =
      List.replicate (runLen (fun d => d == '\n') t) '\n' ++
        collapseSpec (t.drop (runLen (fun d => d == '\n') t)) := by
  cases t with
  | nil => rfl
  | cons d t' =>
    by_cases hd : d = '\n'
    · subst hd
      rw [runLen_cons_pos (p := fun d => d == '\n') (by simp)] at h ⊢
      rw [collapseSpec_cons_nl, min_eq_left (by omega), List.drop_succ_cons]
    · rw [runLen_cons_neg (p := fun d => d == '\n') (by simp [hd])]
      simp

theorem collapseBlank_eq_spec (s : List Char) : collapseBlank s = collapseSpec s := by
  suffices H : ∀ n s, List.length s ≤ n → collapseBlank s = collapseSpec s from
    H s.length s (Nat.le_refl _)
  intro n
  induction n with
  | zero =>
    intro s hs
    have h0 : s = [] := List.eq_nil_of_length_eq_zero (Nat.le_zero.1 hs)
    subst h0; rfl
  | succ k ih =>
    intro s hs
    cases s with
    | nil => rfl
    | cons c t =>
      simp only [List.length_cons] at hs
      by_cases hc : c = '\n'
      · subst hc
        have hrun : runLen (fun d => d == '\n') ('\n' :: t) =
            runLen (fun d => d == '\n') t + 1 :=
          runLen_cons_pos (p := fun d => d == '\n') (by simp)
        by_cases h4 : 4 ≤ runLen (fun d => d == '\n') t + 1
        · have hm := mNl4_pos (s := '\n' :: t) (by rw [hrun]; omega)
          rw [hrun, List.drop_succ_cons] at hm
          show subst mNl4 (s2l "\n\n\n") ('\n' :: t) = collapseSpec ('\n' :: t)
          rw [subst_cons_some_raw _ hm]
          simp only [Nat.add_sub_cancel]
          have hih := ih (t.drop (runLen (fun d => d == '\n') t))
            (by have := List.length_drop (runLen (fun d => d == '\n') t) t; omega)
          rw [show subst mNl4 (s2l "\n\n\n") (t.drop (runLen (fun d => d == '\n') t)) =
            collapseBlank (t.drop (runLen (fun d => d == '\n') t)) from rfl, hih]
          rw [collapseSpec_cons_nl, min_eq_right (by omega)]
          rw [show s2l "\n\n\n" = List.replicate 3 '\n' from by decide]
        · have hm : mNl4 ('\n' :: t) = none := mNl4_neg (by rw [hrun]; omega)
          show subst mNl4 (s2l "\n\n\n") ('\n' :: t) = collapseSpec ('\n' :: t)
          rw [subst_cons_none _ hm]
          rw [show subst mNl4 (s2l "\n\n\n") t = collapseBlank t from rfl, ih t (by omega)]
          rw [collapseSpec_cons_nl, min_eq_left (by omega)]
          rw [spec_unroll (by omega)]
          simp [List.replicate_succ]
      · have hn : ((fun d => d == '\n') c) = false := by simp [hc]
        have hm : mNl4 (c :: t) = none :=
          mNl4_neg (by rw [runLen_cons_neg (p := fun d => d == '\n') hn]; omega)
        show subst mNl4 (s2l "\n\n\n") (c :: t) = collapseSpec (c :: t)
        rw [subst_cons_none _ hm]
        rw [show subst mNl4 (s2l "\n\n\n") t = collapseBlank t from rfl, ih t (by omega)]
        rw [collapseSpec_cons_other t hc]

theorem dropLit?_nl4_of_run {s : List Char}
    (h4 : 4 ≤ runLen (fun d => d == '\n') s) :
    (dropLit? (s2l "\n\n\n\n") s).isSome = true := by
  have hdec : s = s2l "\n\n\n\n" ++
      (List.replicate (runLen (fun d => d == '\n') s - 4) '\n' ++
        s.drop (runLen (fun d => d == '\n') s)) := by
    conv_lhs => rw [← nl_decomp s]
    rw [show runLen (fun d => d == '\n') s =
      4 + (runLen (fun d => d == '\n') s - 4) from by omega]
    rw [List.replicate_add]
    simp only [Nat.add_sub_cancel_left]
    rw [show (List.replicate 4 '\n' : List Char) = s2l "\n\n\n\n" from by decide]
    simp [List.append_assoc]
  rw [hdec, dropLit?_self_append]
  rfl

theorem collapseSpec_id {y : List Char}
    (h : hasSub (s2l "\n\n\n\n") y = false) : collapseSpec y = y := by
  suffices H : ∀ n y, List.length y ≤ n → hasSub (s2l "\n\n\n\n") y = false →
      collapseSpec y = y from H y.length y (Nat.le_refl _) h
  intro n
  induction n with
  | zero =>
    intro y hy _
    have h0 : y = [] := List.eq_nil_of_length_eq_zero (Nat.le_zero.1 hy)
    subst h0; rfl
  | succ k ih =>
    intro y hy hsub
    cases y with
    | nil => rfl
    | cons c t =>
      simp only [List.length_cons] at hy
      simp only [hasSub, Bool.or_eq_false_iff] at hsub
      by_cases hc : c = '\n'
      · subst hc
        have hr : runLen (fun d => d == '\n') ('\n' :: t) ≤ 3 := by
          by_contra hcon
          have h4 : 4 ≤ runLen (fun d => d == '\n') ('\n' :: t) := by omega
          have := dropLit?_nl4_of_run h4
          rw [this] at hsub
          simp at hsub
        rw [runLen_cons_pos (p := fun d => d == '\n') (by simp)] at hr
        rw [collapseSpec_cons_nl, min_eq_left (by omega)]
        have hd : hasSub (s2l "\n\n\n\n") (t.drop (runLen (fun d => d == '\n') t)) = false :=
          hasSub_suffix_false hsub.2 (drop_isSuffix t _)
        rw [ih (t.drop (runLen (fun d => d == '\n') t))
          (by have := List.length_drop (runLen (fun d => d == '\n') t) t; omega) hd]
        rw [List.replicate_succ, List.cons_append, nl_decomp t]
      · rw [collapseSpec_cons_other t hc, ih t (by omega) hsub.2]

/-- C8: the blank-line rule of the script equals the run-based
specification (every run of four or more newlines becomes exactly three,
shorter runs are kept as they are), it is the identity on text without a
four-newline run, and an input with five consecutive newlines comes out
with exactly three at that position. -/
theorem c8_blank_collapse (y : List Char) :
    collapseBlank y = collapseSpec y
    ∧ (hasSub (s2l "\n\n\n\n") y = false → collapseBlank y = y)
    ∧ collapseBlank (s2l "a\n\n\n\n\nb") = s2l "a\n\n\nb" :=
  ⟨collapseBlank_eq_spec y,
    fun h => (collapseBlank_eq_spec y).trans (collapseSpec_id h),
    by decide⟩

/-- Witness for C8: a three-newline run is left untouched. -/
theorem c8_blank_collapse_witness :
    collapseBlank (s2l "x\n\n\ny") = s2l "x\n\n\ny" :=
  (c8_blank_collapse (s2l "x\n\n\ny")).2.1 (by decide)

/-! ### No-match machinery for inputs of the shape A ++ body ++ B -/

theorem mWs_eval0 {s : List Char} (h : s.takeWhile isSp = []) :
    mWs s = some (0, s) := by
  simp [mWs, runLen, h]

theorem mLit_self (l : List Char) : mLit l l = some (l.length, []) := by
  have h := mLit_self_append l []
  rwa [List.append_nil] at h

/-- Inside a prefix whose tail has no opening angle bracket, a matcher
that fails on every position not starting with an angle bracket can only
match at the start of the prefix. -/
theorem noStart {m : M} (hm : ∀ c t, c ≠ '<' → m (c :: t) = none)
    {A : List Char} (ys : List Char) (hA : ∀ c ∈ A.tail, c ≠ '<')
    (h0 : m (A ++ ys) = none) :
    ∀ zs, zs <:+ A → zs ≠ [] → m (zs ++ ys) = none := by
  intro zs hsuf hne
  by_cases heq : zs = A
  · subst heq; exact h0
  · obtain ⟨pp, hpp⟩ := hsuf
    obtain ⟨c, zt, rfl⟩ := List.exists_cons_of_ne_nil hne
    have hppne : pp ≠ [] := by
      intro h0'
      subst h0'
      exact heq (by simpa using hpp)
    obtain ⟨a, pt, rfl⟩ := List.exists_cons_of_ne_nil hppne
    have hcmem : c ∈ A.tail := by
      rw [← hpp]
      simp
    exact hm c (zt ++ ys) (hA c hcmem)

/-- A matcher that fails on every position not starting with an opening
angle bracket has no match in A ++ body ++ B when the tail of A and all
of body are free of that character, the matcher fails at the start of A,
and it has no match in B. -/
theorem hasMatch_sandwich_false {m : M}
    (hm : ∀ c t, c ≠ '<' → m (c :: t) = none)
    {A body B : List Char} (hA : ∀ c ∈ A.tail, c ≠ '<')
    (hb : ∀ c ∈ body, c ≠ '<')
    (h0 : m (A ++ (body ++ B)) = none)
    (hB : hasMatch m B = false) :
    hasMatch m (A ++ (body ++ B)) = false := by
  apply hasMatch_append_false
  · exact noStart hm (body ++ B) hA h0
  · apply hasMatch_append_false
    · intro zs hsuf hne
      obtain ⟨c, zt, rfl⟩ := List.exists_cons_of_ne_nil hne
      have hc : c ∈ body := hsuf.subset (by simp)
      exact hm c (zt ++ B) (hb c hc)
    · exact hB

/-- After the whitespace run following the toggleMenu header, the next
character is never an opening brace when the body is brace-free (the
closing script tag starts with an angle bracket). -/
theorem mLit_lb_after_ws :
    ∀ (body : List Char), (∀ c ∈ body, c ≠ lb) →
      mLit [lb] ((body ++ scriptClose).drop (runLen isSp (body ++ scriptClose))) = none
  | [], _ => by decide
  | c :: b', hb => by
    by_cases hc : isSp c = true
    · rw [List.cons_append, runLen_cons_pos hc, List.drop_succ_cons]
      exact mLit_lb_after_ws b' (fun d hd => hb d (by simp [hd]))
    · rw [List.cons_append, runLen_cons_neg (by simpa using hc), List.drop_zero]
      exact mLit_none (dropLit?_head_ne (hb c (by simp)))

/-! ### Claim theorems for C7 -/

/-- C7 as stated is false: a script block defining toggleMenu whose text
contains an opening angle bracket after the first brace pair (here the
comparison in a second statement) matches neither removal pattern, so the
pipeline leaves the whole block in place and reports no change. -/
theorem c7_claim_false :
    hasSub (scriptOpen ++ funcToggle)
      (scriptOpen ++ funcToggle ++
        ([lb] ++ s2l "a" ++ [rb] ++ s2l "if(p<q)" ++ [lb] ++ s2l "r" ++ [rb]) ++
        scriptClose) = true
    ∧ normalize (s2l "index.html")
        (scriptOpen ++ funcToggle ++
          ([lb] ++ s2l "a" ++ [rb] ++ s2l "if(p<q)" ++ [lb] ++ s2l "r" ++ [rb]) ++
          scriptClose) =
        ⟨scriptOpen ++ funcToggle ++
          ([lb] ++ s2l "a" ++ [rb] ++ s2l "if(p<q)" ++ [lb] ++ s2l "r" ++ [rb]) ++
          scriptClose, [], false⟩ := by
  refine ⟨by decide, by decide⟩

/-- C7 amended: a toggleMenu script block is removed when it matches one
of the two removal patterns; in particular for every nonempty function
remainder free of opening angle brackets and opening braces, the block
consisting of the script tag, the toggleMenu header, that remainder and
the closing tag is removed in full by the simple rule (no other rule
fires), leaving no remnant. -/
theorem c7_amended (fileId body : List Char) (h1 : body ≠ [])
    (h2 : ∀ c ∈ body, c ≠ '<') (h3 : ∀ c ∈ body, c ≠ lb) :
    normalize fileId (scriptOpen ++ (funcToggle ++ (body ++ scriptClose))) =
      ⟨[], [simpleLabel], true⟩ := by
  have hA : ∀ c ∈ (scriptOpen ++ funcToggle).tail, c ≠ '<' := by decide
  have hassoc : scriptOpen ++ (funcToggle ++ (body ++ scriptClose)) =
      (scriptOpen ++ funcToggle) ++ (body ++ scriptClose) := by
    simp [List.append_assoc]
  -- step 1 has no match
  have hemailM : hasMatch mEmailDup
      (scriptOpen ++ (funcToggle ++ (body ++ scriptClose))) = false := by
    rw [hassoc]
    refine hasMatch_sandwich_false (fun c t hc => headLt_fail _ (by decide) hc)
      hA h2 ?_ (by decide)
    exact mSeq_none1 (mLit_none (dropLit?_none_of_long _ (by decide) (by decide)))
  -- step 2 has no match
  have hcssM : hasMatch mDupCss
      (scriptOpen ++ (funcToggle ++ (body ++ scriptClose))) = false := by
    rw [hassoc]
    refine hasMatch_sandwich_false (fun c t hc => headLt_fail _ (by decide) hc)
      hA h2 ?_ (by decide)
    exact mSeq_none1 (mLit_none (dropLit?_none_of_long _ (by decide) (by decide)))
  -- step 3 has no match
  have hfootM : hasMatch mDupFooter
      (scriptOpen ++ (funcToggle ++ (body ++ scriptClose))) = false := by
    rw [hassoc]
    refine hasMatch_sandwich_false (fun c t hc => headLt_fail _ (by decide) hc)
      hA h2 ?_ (by decide)
    exact mSeq_none1 (mLit_none (dropLit?_none_of_short _ (by decide) (by decide)))
  -- the verbose pattern has no match: the brace literal fails after the header
  have hverb0 : mVerboseNav
      ((scriptOpen ++ funcToggle) ++ (body ++ scriptClose)) = none := by
    rw [← hassoc]
    have s2 : mWs (funcToggle ++ (body ++ scriptClose)) =
        some (0, funcToggle ++ (body ++ scriptClose)) :=
      mWs_eval0 (takeWhile_append_nil (a := 'f') _ (by decide) (by decide))
    have s3 : mSeq (mLit useStrict) mWs (funcToggle ++ (body ++ scriptClose)) = none :=
      mSeq_none1 (mLit_none (dropLit?_none_of_short _ (by decide) (by decide)))
    have s6 := mLit_lb_after_ws body h3
    exact mSeq_none2 (mLit_self_append scriptOpen (funcToggle ++ (body ++ scriptClose)))
      (mSeq_none2 s2
        (mSeq_none2 (mOpt_skip s3)
          (mSeq_none2 (mLit_self_append funcToggle (body ++ scriptClose))
            (mSeq_none2 rfl (mSeq_none1 s6)))))
  have hverbM : hasMatch mVerboseNav
      (scriptOpen ++ (funcToggle ++ (body ++ scriptClose))) = false := by
    rw [hassoc]
    exact hasMatch_sandwich_false (fun c t hc => headLt_fail _ (by decide) hc)
      hA h2 hverb0 (by decide)
  -- the simple pattern matches at the start and swallows the whole input
  have hsome : mSimpleNav (scriptOpen ++ (funcToggle ++ (body ++ scriptClose))) =
      some (scriptOpen.length +
        (0 + (funcToggle.length + (body.length + scriptClose.length))), []) := by
    have s2 : mWs (funcToggle ++ (body ++ scriptClose)) =
        some (0, funcToggle ++ (body ++ scriptClose)) :=
      mWs_eval0 (takeWhile_append_nil (a := 'f') _ (by decide) (by decide))
    have s5 : mNotCh1 '<' (body ++ scriptClose) = some (body.length, scriptClose) :=
      mNotCh1_eval h1 (fun c hc => by simp [h2 c hc]) (by decide)
    exact mSeq_some (mLit_self_append scriptOpen (funcToggle ++ (body ++ scriptClose)))
      (mSeq_some s2
        (mSeq_some (mLit_self_append funcToggle (body ++ scriptClose))
          (mSeq_some s5 (mLit_self scriptClose))))
  have hpos : 1 ≤ scriptOpen.length +
      (0 + (funcToggle.length + (body.length + scriptClose.length))) :=
    Nat.le_trans (by decide) (Nat.le_add_right scriptOpen.length _)
  have hXne : scriptOpen ++ (funcToggle ++ (body ++ scriptClose)) ≠ [] := by
    intro hX
    exact (by decide : scriptOpen ≠ ([] : List Char)) (List.append_eq_nil.1 hX).1
  have hsubX : subst mSimpleNav [] (scriptOpen ++ (funcToggle ++ (body ++ scriptClose))) = [] := by
    rw [subst_match _ _ consumes_mSimpleNav hsome hpos hXne]
    simp [subst_nil]
  -- the five stage results
  have hemail : emailFix (scriptOpen ++ (funcToggle ++ (body ++ scriptClose))) =
      (scriptOpen ++ (funcToggle ++ (body ++ scriptClose)), []) := by
    simp [emailFix, hemailM]
  have hcss : cssFix fileId (scriptOpen ++ (funcToggle ++ (body ++ scriptClose))) =
      (scriptOpen ++ (funcToggle ++ (body ++ scriptClose)), []) := by
    by_cases hg : hasSub hireStaffL fileId = true <;> simp [cssFix, hg, hcssM]
  have hfoot : footerFix (scriptOpen ++ (funcToggle ++ (body ++ scriptClose))) =
      (scriptOpen ++ (funcToggle ++ (body ++ scriptClose)), []) := by
    simp [footerFix, hfootM]
  have hverb : verboseNavFix (scriptOpen ++ (funcToggle ++ (body ++ scriptClose))) =
      (scriptOpen ++ (funcToggle ++ (body ++ scriptClose)), []) := by
    simp [verboseNavFix, hverbM]
  have hsimple : simpleNavFix (scriptOpen ++ (funcToggle ++ (body ++ scriptClose))) =
      ([], [simpleLabel]) := by
    have ht : hasMatch mSimpleNav
        (scriptOpen ++ (funcToggle ++ (body ++ scriptClose))) = true :=
      hasMatch_of_head (by rw [hsome]; rfl)
    simp [simpleNavFix, ht, hsubX]
  have hstage : stage4 fileId (scriptOpen ++ (funcToggle ++ (body ++ scriptClose))) =
      ([], [simpleLabel]) := by
    simp [stage4, hemail, hcss, hfoot, hverb, hsimple]
  have hss : sharedStep ([] : List Char) = ([], []) := by decide
  have hne : ([] : List Char) ≠ scriptOpen ++ (funcToggle ++ (body ++ scriptClose)) := by
    intro hX
    have h8 : scriptOpen ≠ ([] : List Char) := by decide
    exact h8 (List.append_eq_nil.1 hX.symm).1
  show normalize fileId (scriptOpen ++ (funcToggle ++ (body ++ scriptClose))) = _
  simp only [normalize, hstage, hss]
  simp [collapseBlank, subst_nil, hne]

/-- Witness for C7 at a concrete one-character remainder. -/
theorem c7_amended_witness :
    normalize (s2l "f.html") (scriptOpen ++ (funcToggle ++ (s2l "x" ++ scriptClose))) =
      ⟨[], [simpleLabel], true⟩ :=
  c7_amended (s2l "f.html") (s2l "x") (by decide) (by decide) (by decide)

end VergoFix
